import Mathlib

/-!
Verification of the RN bound/threshold computation scripts.

Shallow embedding of the core numeric engines of the repository:
  * `compute_C_right.py`   — prime sieve, partial sum, tail bound, bound interval
  * `threshold_T0.py`      — derived constants and the threshold formula
  * `measure_Cthin_star.py`— margin analysis and status classification
  * `optimize.py`          — metric computation and the grid-search optimizer
  * `validate_horizontals.py` — piecewise envelope bound on horizontal segments

Python floats are modelled as real numbers; Python lists as Lean lists.
-/

namespace RN

/-! ## compute_C_right.py : Sieve of Eratosthenes (`primes_upto`)

The Python code builds a bytearray `sieve` of size `n+1`, ones everywhere,
zeroes indices 0 and 1, and for each `p` in `range(2, int(n**0.5)+1)` with
`sieve[p]` still set, zeroes the slice `sieve[p*p : n+1 : p]`.
We model the byte array as a function `Nat → Bool` and each mutation as a
functional update. -/

/-- Initial sieve state: index `i` is set iff `2 ≤ i ≤ n`
(the bytearray of ones with positions 0 and 1 cleared). -/
def initSieve (n : Nat) : Nat → Bool := fun i => decide (2 ≤ i ∧ i ≤ n)

/-- `sieve[p*p : n+1 : p] = zeros`: clear every index `j ≤ n` that is a
multiple of `p` not smaller than `p*p`. -/
def markMultiples (n p : Nat) (s : Nat → Bool) : Nat → Bool :=
  fun j => if p * p ≤ j ∧ j ≤ n ∧ p ∣ j then false else s j

/-- One iteration of the sieve loop body: `if sieve[p]: clear multiples`. -/
def sieveStep (n : Nat) (s : Nat → Bool) (p : Nat) : Nat → Bool :=
  if s p then markMultiples n p s else s

/-- The fully processed sieve array: fold the loop body over
`range(2, int(n**0.5) + 1)`. -/
def runSieve (n : Nat) : Nat → Bool :=
  (List.range' 2 (Nat.sqrt n - 1)).foldl (sieveStep n) (initSieve n)

/-- `primes_upto(n)` from `compute_C_right.py`:
`[]` for `n < 2`, otherwise `[i for i in range(2, n+1) if sieve[i]]`. -/
def primes_upto (n : Nat) : List Nat :=
  if n < 2 then [] else (List.range' 2 (n - 1)).filter (fun i => runSieve n i)

/-! ### Sieve correctness -/

lemma markMultiples_false {n p : Nat} {s : Nat → Bool} {j : Nat}
    (h : s j = false) : markMultiples n p s j = false := by
  unfold markMultiples
  split <;> simp [h]

lemma sieveStep_false {n p : Nat} {s : Nat → Bool} {j : Nat}
    (h : s j = false) : sieveStep n s p j = false := by
  unfold sieveStep
  split
  · exact markMultiples_false h
  · exact h

lemma foldl_sieveStep_false {n : Nat} {j : Nat} :
    ∀ (l : List Nat) (s : Nat → Bool), s j = false →
      (l.foldl (sieveStep n) s) j = false := by
  intro l
  induction l with
  | nil => intro s h; simpa using h
  | cons p l ih =>
      intro s h
      exact ih _ (sieveStep_false h)

lemma sieveStep_prime {n p : Nat} {s : Nat → Bool} {q : Nat}
    (hq : q.Prime) (hp : 2 ≤ p) : sieveStep n s p q = s q := by
  unfold sieveStep
  split
  · unfold markMultiples
    split
    · next hcond =>
        exfalso
        obtain ⟨hpp, _, hdvd⟩ := hcond
        rcases (hq.eq_one_or_self_of_dvd p hdvd) with h1 | h1
        · omega
        · subst h1
          nlinarith [hq.two_le]
    · rfl
  · rfl

lemma foldl_sieveStep_prime {n : Nat} {q : Nat} (hq : q.Prime) :
    ∀ (l : List Nat) (s : Nat → Bool), (∀ p ∈ l, 2 ≤ p) →
      (l.foldl (sieveStep n) s) q = s q := by
  intro l
  induction l with
  | nil => intro s _; rfl
  | cons p l ih =>
      intro s hl
      have h2 : 2 ≤ p := hl p (List.mem_cons_self _ _)
      rw [List.foldl_cons, ih _ fun r hr => hl r (List.mem_cons_of_mem _ hr),
        sieveStep_prime hq h2]

lemma foldl_sieveStep_composite {n j q : Nat} (hq : q.Prime)
    (hqj : q * q ≤ j) (hjn : j ≤ n) (hdvd : q ∣ j) :
    ∀ (l : List Nat) (s : Nat → Bool), q ∈ l → (∀ p ∈ l, 2 ≤ p) →
      s q = true → (l.foldl (sieveStep n) s) j = false := by
  intro l
  induction l with
  | nil => intro s h; simp at h
  | cons p l ih =>
      intro s hmem hl hsq
      rw [List.foldl_cons]
      by_cases hpq : p = q
      · subst hpq
        have hstep : sieveStep n s p = markMultiples n p s := by
          unfold sieveStep; rw [hsq]; simp
        rw [hstep]
        apply foldl_sieveStep_false
        unfold markMultiples
        rw [if_pos ⟨hqj, hjn, hdvd⟩]
      · have hmem' : q ∈ l := by
          rcases List.mem_cons.1 hmem with h | h
          · exact absurd h.symm hpq
          · exact h
        have h2 : 2 ≤ p := hl p (List.mem_cons_self _ _)
        apply ih _ hmem' (fun r hr => hl r (List.mem_cons_of_mem _ hr))
        rw [sieveStep_prime hq h2, hsq]

lemma mem_sieve_range {n q : Nat} (h2 : 2 ≤ q) (hq : q ≤ Nat.sqrt n) :
    q ∈ List.range' 2 (Nat.sqrt n - 1) := by
  rw [List.mem_range'_1]
  omega

/-- Sieve correctness: for `2 ≤ j ≤ n` the final sieve entry at `j` is set
iff `j` is prime. -/
theorem runSieve_eq_prime {n j : Nat} (h2 : 2 ≤ j) (hjn : j ≤ n) :
    runSieve n j = true ↔ j.Prime := by
  constructor
  · intro h
    by_contra hnp
    have hq : (Nat.minFac j).Prime := Nat.minFac_prime (by omega)
    have hdvd : Nat.minFac j ∣ j := Nat.minFac_dvd j
    have hsq : Nat.minFac j * Nat.minFac j ≤ j := by
      have := Nat.minFac_sq_le_self (by omega) hnp
      nlinarith [this]
    have hmem : Nat.minFac j ∈ List.range' 2 (Nat.sqrt n - 1) :=
      mem_sieve_range hq.two_le (Nat.le_sqrt.2 (le_trans hsq hjn))
    have hinit : initSieve n (Nat.minFac j) = true := by
      unfold initSieve
      have : Nat.minFac j ≤ j := Nat.minFac_le (by omega)
      simp only [decide_eq_true_eq]
      exact ⟨hq.two_le, by omega⟩
    have := foldl_sieveStep_composite hq hsq hjn hdvd
      (List.range' 2 (Nat.sqrt n - 1)) (initSieve n) hmem
      (fun p hp => by rw [List.mem_range'_1] at hp; omega) hinit
    rw [runSieve] at h
    rw [this] at h
    exact Bool.false_ne_true h
  · intro hp
    unfold runSieve
    rw [foldl_sieveStep_prime hp _ _ (fun p hmem => by
      rw [List.mem_range'_1] at hmem; omega)]
    unfold initSieve
    simp only [decide_eq_true_eq]
    exact ⟨h2, hjn⟩

/-- Membership characterization of `primes_upto`. -/
theorem mem_primes_upto {n j : Nat} :
    j ∈ primes_upto n ↔ j.Prime ∧ j ≤ n := by
  unfold primes_upto
  split
  · next h =>
      simp only [List.not_mem_nil, false_iff, not_and]
      intro hp hjn
      have := hp.two_le
      omega
  · next h =>
      rw [List.mem_filter, List.mem_range'_1]
      constructor
      · rintro ⟨hr, hs⟩
        have h2 : 2 ≤ j := hr.1
        have hjn : j ≤ n := by omega
        exact ⟨(runSieve_eq_prime h2 hjn).1 hs, hjn⟩
      · rintro ⟨hp, hjn⟩
        have h2 : 2 ≤ j := hp.two_le
        exact ⟨⟨h2, by omega⟩, (runSieve_eq_prime h2 hjn).2 hp⟩

/-- `primes_upto` is strictly increasing (it filters an increasing range). -/
theorem primes_upto_sorted (n : Nat) : (primes_upto n).Pairwise (· < ·) := by
  unfold primes_upto
  split
  · simp
  · exact (List.pairwise_lt_range' 2 _ 1 (by omega)).filter _

/-- C8: for every integer `P ≥ 0`, `primes_upto P` returns exactly the primes
`≤ P`, in increasing order; in particular `primes_upto 0 = []`,
`primes_upto 1 = []` and `primes_upto 2 = [2]`. -/
theorem primes_upto_correct :
    (∀ P j : Nat, j ∈ primes_upto P ↔ j.Prime ∧ j ≤ P)
    ∧ (∀ P : Nat, (primes_upto P).Pairwise (· < ·))
    ∧ primes_upto 0 = [] ∧ primes_upto 1 = [] ∧ primes_upto 2 = [2] := by
  have hs : Nat.sqrt 2 = 1 := (Nat.eq_sqrt.2 (by omega)).symm
  refine ⟨fun P j => mem_primes_upto, primes_upto_sorted, by norm_num [primes_upto],
    by norm_num [primes_upto], ?_⟩
  simp [primes_upto, runSieve, hs, initSieve, List.range']

/-! ## compute_C_right.py : partial sum, tail bound, bound interval -/

/-- The inner `while p**k <= P` loop of `compute_partial_sum`, accumulating
`log(p) / p**(2*k)` and incrementing `k`; `fuel` bounds the number of
iterations (the Python loop terminates because `p ≥ 2`). -/
noncomputable def powerLoop (p P : Nat) : Nat → Nat → ℝ
  | 0, _ => 0
  | fuel + 1, k =>
      if p ^ k ≤ P then Real.log p / (p : ℝ) ^ (2 * k) + powerLoop p P fuel (k + 1)
      else 0

/-- `compute_partial_sum(P, include_prime_powers)` from `compute_C_right.py`:
sum `log(p) / (p**2 - 1)` over the sieved primes; if `include_prime_powers`
also run the `p**k ≤ P` loop over primes with `p**2 ≤ P` (the Python `break`
on the sorted prime list is a `takeWhile`). -/
noncomputable def compute_partial_sum (P : Nat) (include_prime_powers : Bool) : ℝ :=
  let primes := primes_upto P
  let S := primes.foldl (fun (S : ℝ) (p : Nat) => S + Real.log (p : ℝ) / ((p : ℝ) ^ 2 - 1)) 0
  if include_prime_powers then
    (primes.takeWhile fun p => p * p ≤ P).foldl (fun S p => S + powerLoop p P P 2) S
  else S

/-- `compute_tail_bound(P)`: the rigorous tail estimate
`(4/3) * (log P + 1) / P`. -/
noncomputable def compute_tail_bound (P : Nat) : ℝ :=
  (4 / 3) * (Real.log P + 1) / P

/-- The quadruple `(lower, upper, partial_sum, tail_bound)` returned by
`compute_C_right_bounds`. -/
structure BoundInterval where
  lower : ℝ
  upper : ℝ
  partialSum : ℝ
  tailBound : ℝ

/-- `compute_C_right_bounds(P, include_prime_powers)`:
returns `(S, S + tail, S, tail)`. -/
noncomputable def compute_C_right_bounds (P : Nat) (include_prime_powers : Bool) :
    BoundInterval :=
  let S := compute_partial_sum P include_prime_powers
  let tail := compute_tail_bound P
  ⟨S, S + tail, S, tail⟩

/-- The bound computation in its default mode: the keyword default of
`compute_C_right_bounds` is `include_prime_powers=False`, and `main` calls it
with `include_powers = False` explicitly. -/
noncomputable def compute_C_right_bounds_default (P : Nat) : BoundInterval :=
  compute_C_right_bounds P false

lemma foldl_add_eq_sum (f : Nat → ℝ) :
    ∀ (l : List Nat) (a : ℝ), l.foldl (fun S p => S + f p) a = a + (l.map f).sum := by
  intro l
  induction l with
  | nil => intro a; simp
  | cons p l ih =>
      intro a
      rw [List.foldl_cons, ih]
      simp [add_assoc]

lemma primes_upto_nodup (n : Nat) : (primes_upto n).Nodup :=
  (primes_upto_sorted n).imp Nat.ne_of_lt

lemma primes_upto_toFinset (n : Nat) :
    (primes_upto n).toFinset = (Finset.range (n + 1)).filter Nat.Prime := by
  ext j
  rw [List.mem_toFinset, mem_primes_upto, Finset.mem_filter, Finset.mem_range]
  constructor
  · rintro ⟨h1, h2⟩; exact ⟨by omega, h1⟩
  · rintro ⟨h1, h2⟩; exact ⟨h2, by omega⟩

/-- C1: for every `P ≥ 2`, the partial sum used to build the `C_right` bound
interval in the default mode (as invoked by `main`) equals the closed-form sum
of `log p / (p² - 1)` over exactly the primes `p ≤ P` — no additional
prime-power terms are added on top of the closed form. -/
theorem partial_sum_closed_form (P : Nat) (hP : 2 ≤ P) :
    (compute_C_right_bounds_default P).partialSum
      = ∑ p in (Finset.range (P + 1)).filter Nat.Prime,
          Real.log (p : ℝ) / ((p : ℝ) ^ 2 - 1) := by
  have h1 : (compute_C_right_bounds_default P).partialSum
      = (primes_upto P).foldl
          (fun (S : ℝ) (p : Nat) => S + Real.log (p : ℝ) / ((p : ℝ) ^ 2 - 1)) 0 := rfl
  rw [h1, foldl_add_eq_sum, zero_add,
    ← List.sum_toFinset _ (primes_upto_nodup P), primes_upto_toFinset]

/-- C1 witness: the theorem instantiated at `P = 10`. -/
theorem partial_sum_closed_form_witness :
    2 ≤ 10 ∧ (compute_C_right_bounds_default 10).partialSum
      = ∑ p in (Finset.range 11).filter Nat.Prime,
          Real.log (p : ℝ) / ((p : ℝ) ^ 2 - 1) :=
  ⟨by decide, partial_sum_closed_form 10 (by decide)⟩

/-- The key analytic fact behind tail shrinkage: `(log x + 1) / x` is
strictly decreasing on reals `2 ≤ a < b`. -/
lemma log_add_one_div_strict_anti {a b : ℝ} (ha : 2 ≤ a) (hab : a < b) :
    (Real.log b + 1) / b < (Real.log a + 1) / a := by
  have ha0 : (0 : ℝ) < a := by linarith
  have hb0 : (0 : ℝ) < b := by linarith
  have hloga : 0 < Real.log a := Real.log_pos (by linarith)
  have hdiv : Real.log (b / a) ≤ b / a - 1 :=
    Real.log_le_sub_one_of_pos (div_pos hb0 ha0)
  have hsplit : Real.log (b / a) = Real.log b - Real.log a :=
    Real.log_div (by linarith) (by linarith)
  -- from `a * log b ≤ a * log a + (b - a)` and `a * log a < b * log a`:
  have h1 : a * Real.log b ≤ a * Real.log a + (b - a) := by
    have := mul_le_mul_of_nonneg_left hdiv (le_of_lt ha0)
    rw [hsplit] at this
    have harith : a * (b / a - 1) = b - a := by field_simp
    nlinarith [this]
  have h2 : a * Real.log a < b * Real.log a := by nlinarith
  rw [div_lt_div_iff₀ hb0 ha0]
  nlinarith

/-- C3: for all `2 ≤ P1 < P2` the interval width `upper - lower` returned by
`compute_C_right_bounds` equals the tail bound `(4/3)(log P + 1)/P` and is
strictly smaller at `P2` than at `P1`. -/
theorem tail_width_strict_anti (P₁ P₂ : Nat) (h₁ : 2 ≤ P₁) (h₁₂ : P₁ < P₂) :
    (∀ (P : Nat) (b : Bool), (compute_C_right_bounds P b).upper
        - (compute_C_right_bounds P b).lower = compute_tail_bound P)
    ∧ (compute_C_right_bounds P₂ false).upper - (compute_C_right_bounds P₂ false).lower
      < (compute_C_right_bounds P₁ false).upper
        - (compute_C_right_bounds P₁ false).lower := by
  have hwidth : ∀ (P : Nat) (b : Bool), (compute_C_right_bounds P b).upper
      - (compute_C_right_bounds P b).lower = compute_tail_bound P := by
    intro P b
    show compute_partial_sum P b + compute_tail_bound P - compute_partial_sum P b
      = compute_tail_bound P
    ring
  refine ⟨hwidth, ?_⟩
  rw [hwidth, hwidth]
  unfold compute_tail_bound
  have hcast : (2 : ℝ) ≤ (P₁ : ℝ) := by exact_mod_cast h₁
  have hcast2 : (P₁ : ℝ) < (P₂ : ℝ) := by exact_mod_cast h₁₂
  have key := log_add_one_div_strict_anti hcast hcast2
  have h43 : (0 : ℝ) < 4 / 3 := by norm_num
  calc 4 / 3 * (Real.log (P₂ : ℝ) + 1) / (P₂ : ℝ)
      = 4 / 3 * ((Real.log (P₂ : ℝ) + 1) / (P₂ : ℝ)) := by ring
    _ < 4 / 3 * ((Real.log (P₁ : ℝ) + 1) / (P₁ : ℝ)) := by
        exact mul_lt_mul_of_pos_left key h43
    _ = 4 / 3 * (Real.log (P₁ : ℝ) + 1) / (P₁ : ℝ) := by ring

/-- C3 witness: the theorem instantiated at `P1 = 2`, `P2 = 3`. -/
theorem tail_width_strict_anti_witness :
    2 ≤ 2 ∧ 2 < 3
    ∧ (compute_C_right_bounds 3 false).upper - (compute_C_right_bounds 3 false).lower
      < (compute_C_right_bounds 2 false).upper
        - (compute_C_right_bounds 2 false).lower :=
  ⟨by decide, by decide, (tail_width_strict_anti 2 3 (by decide) (by decide)).2⟩

/-! ## threshold_T0.py : derived constants and the threshold formula -/

/-- `compute_C_thin_star(R0, sub_weyl_exp)` from `threshold_T0.py`:
`alpha_star = sub_weyl_exp + R0`, result `(8/R0) * alpha_star`. -/
noncomputable def compute_C_thin_star_T0 (R0 sub_weyl_exp : ℝ) : ℝ :=
  (8 / R0) * (sub_weyl_exp + R0)

/-- `compute_log_T0(c, kappa, C_right, C_thin)` from `threshold_T0.py`:
`(2.0 * c / math.pi) * (C_right + kappa * C_thin)`. -/
noncomputable def compute_log_T0 (c kappa C_right C_thin : ℝ) : ℝ :=
  2 * c / Real.pi * (C_right + kappa * C_thin)

/-- C2: `compute_log_T0` returns exactly `(2c/π)(C_right + κ·C_thin)`, and,
under the data-model invariants `c > 0`, `κ > 0` with `C_right > 0` and
`C_thin > 0`, it is strictly increasing in `c`, in `κ`, and in `C_thin`,
holding the other inputs fixed. -/
theorem log_T0_formula_and_monotone :
    (∀ c kappa C_right C_thin : ℝ,
      compute_log_T0 c kappa C_right C_thin
        = 2 * c / Real.pi * (C_right + kappa * C_thin))
    ∧ (∀ c c' kappa C_right C_thin : ℝ, 0 < kappa → 0 < C_right → 0 < C_thin →
        c < c' → compute_log_T0 c kappa C_right C_thin
          < compute_log_T0 c' kappa C_right C_thin)
    ∧ (∀ c kappa kappa' C_right C_thin : ℝ, 0 < c → 0 < C_right → 0 < C_thin →
        kappa < kappa' → compute_log_T0 c kappa C_right C_thin
          < compute_log_T0 c kappa' C_right C_thin)
    ∧ (∀ c kappa C_right Ct Ct' : ℝ, 0 < c → 0 < kappa → 0 < C_right →
        Ct < Ct' → compute_log_T0 c kappa C_right Ct
          < compute_log_T0 c kappa C_right Ct') := by
  have hpi : (0 : ℝ) < Real.pi := Real.pi_pos
  refine ⟨fun _ _ _ _ => rfl, ?_, ?_, ?_⟩
  · intro c c' kappa C_right C_thin hk hr ht hcc
    unfold compute_log_T0
    have hX : 0 < C_right + kappa * C_thin := by positivity
    rw [div_mul_eq_mul_div, div_mul_eq_mul_div, div_lt_div_iff₀ hpi hpi]
    exact mul_lt_mul_of_pos_right
      (mul_lt_mul_of_pos_right (show 2 * c < 2 * c' by linarith) hX) hpi
  · intro c kappa kappa' C_right C_thin hc hr ht hkk
    unfold compute_log_T0
    rw [div_mul_eq_mul_div, div_mul_eq_mul_div, div_lt_div_iff₀ hpi hpi]
    have hXX : C_right + kappa * C_thin < C_right + kappa' * C_thin := by
      nlinarith [mul_lt_mul_of_pos_right hkk ht]
    exact mul_lt_mul_of_pos_right
      (mul_lt_mul_of_pos_left hXX (show (0 : ℝ) < 2 * c by linarith)) hpi
  · intro c kappa C_right Ct Ct' hc hk hr htt
    unfold compute_log_T0
    rw [div_mul_eq_mul_div, div_mul_eq_mul_div, div_lt_div_iff₀ hpi hpi]
    have hXX : C_right + kappa * Ct < C_right + kappa * Ct' := by
      nlinarith [mul_lt_mul_of_pos_left htt hk]
    exact mul_lt_mul_of_pos_right
      (mul_lt_mul_of_pos_left hXX (show (0 : ℝ) < 2 * c by linarith)) hpi

/-- C2 witness: formula at `(1,1,1,1)` and each monotonicity at a concrete
instance. -/
theorem log_T0_formula_and_monotone_witness :
    compute_log_T0 1 1 1 1 = 2 * 1 / Real.pi * (1 + 1 * 1)
    ∧ compute_log_T0 1 1 1 1 < compute_log_T0 2 1 1 1
    ∧ compute_log_T0 1 1 1 1 < compute_log_T0 1 2 1 1
    ∧ compute_log_T0 1 1 1 1 < compute_log_T0 1 1 1 2 :=
  ⟨log_T0_formula_and_monotone.1 1 1 1 1,
    log_T0_formula_and_monotone.2.1 1 2 1 1 1 one_pos one_pos one_pos one_lt_two,
    log_T0_formula_and_monotone.2.2.1 1 1 2 1 1 one_pos one_pos one_pos one_lt_two,
    log_T0_formula_and_monotone.2.2.2 1 1 1 1 2 one_pos one_pos one_pos one_lt_two⟩

/-! ## measure_Cthin_star.py : margin analysis -/

/-- `compute_boundary_growth_slope(R0, sub_weyl_exp)`:
`alpha_star = sub_weyl_exp + R0`. -/
noncomputable def compute_boundary_growth_slope (R0 sub_weyl_exp : ℝ) : ℝ :=
  sub_weyl_exp + R0

/-- `compute_C_thin_star(R0, alpha_star)` from `measure_Cthin_star.py`:
`(8.0 / R0) * alpha_star`. -/
noncomputable def compute_C_thin_star (R0 alpha_star : ℝ) : ℝ :=
  8 / R0 * alpha_star

/-- `estimate_average_g_R0(T, h, delta, alpha_star, model)`: returns
`(avg_proxy, std_proxy)`; the model string selects the `avg_factor`
(with the Python `else` fallback of `0.5` for any other string).
The parameter `h` is accepted but unused, exactly as in the source. -/
noncomputable def estimate_average_g_R0 (T h delta alpha_star : ℝ)
    (model : String) : ℝ × ℝ :=
  let scale := alpha_star * Real.log T
  let avg_factor : ℝ :=
    if model = "toy" then 0.5
    else if model = "realistic" then 0.58 - 0.08 * delta / (delta + 0.1)
    else if model = "conservative" then 0.65
    else 0.5
  (scale * avg_factor * delta, scale * 0.1 * delta)

/-- The three-way margin status reported by `analyze_margin`
(`WARNING: Negative margin` / `WARNING: Low margin` / `Status: OK`). -/
inductive MarginStatus where
  | INVALID : MarginStatus
  | MARGINAL : MarginStatus
  | OK : MarginStatus
deriving DecidableEq

/-- The `if margin_percent < 0 / elif margin_percent < 20 / else` status
classification at the end of `analyze_margin`. -/
noncomputable def classify_margin (margin_percent : ℝ) : MarginStatus :=
  if margin_percent < 0 then MarginStatus.INVALID
  else if margin_percent < 20 then MarginStatus.MARGINAL
  else MarginStatus.OK

/-- All quantities computed by `analyze_margin`. -/
structure MarginResult where
  h : ℝ
  delta : ℝ
  alpha_star : ℝ
  C_thin_star : ℝ
  avg_proxy : ℝ
  std_proxy : ℝ
  bound_rhs : ℝ
  margin : ℝ
  margin_percent : ℝ
  log_T0 : ℝ
  T0 : ℝ
  status : MarginStatus

/-- The computation pipeline of `analyze_margin(args)` from
`measure_Cthin_star.py`, with the command-line arguments
`(R0, c, kappa, T, C_right, sub_weyl_exp, model)` passed explicitly:
`h = c/log T`, `delta = kappa/log T`, constants, average estimate, bound,
margin, guarded `margin_percent`, threshold, and status classification. -/
noncomputable def analyze_margin (R0 c kappa T C_right sub_weyl_exp : ℝ)
    (model : String) : MarginResult :=
  let h := c / Real.log T
  let delta := kappa / Real.log T
  let alpha_star := compute_boundary_growth_slope R0 sub_weyl_exp
  let C_thin_star := compute_C_thin_star R0 alpha_star
  let ap := estimate_average_g_R0 T h delta alpha_star model
  let bound_rhs := C_thin_star * h * delta * Real.log T
  let margin := bound_rhs - ap.1
  let margin_percent := if 0 < bound_rhs then margin / bound_rhs * 100 else 0
  let log_T0 := 2 * c / Real.pi * (C_right + kappa * C_thin_star)
  ⟨h, delta, alpha_star, C_thin_star, ap.1, ap.2, bound_rhs, margin,
    margin_percent, log_T0, Real.exp log_T0, classify_margin margin_percent⟩

/-- C4: for every evaluation with `T > 1` and a model chosen from
`{toy, realistic, conservative}`, the margin analysis computes
`avg_proxy = alpha_star · log T · avg_factor · delta` with the stated
per-model factor, `bound_rhs = C_thin_star · h · delta · log T`,
`margin = bound_rhs - avg_proxy`, and, whenever `bound_rhs > 0`,
`margin_percent = 100 · margin / bound_rhs`. -/
theorem analyze_margin_formulas (R0 c kappa T C_right swe : ℝ) (model : String)
    (hT : 1 < T) :
    (model = "toy" →
      (analyze_margin R0 c kappa T C_right swe model).avg_proxy
        = (analyze_margin R0 c kappa T C_right swe model).alpha_star * Real.log T
            * 0.5 * (analyze_margin R0 c kappa T C_right swe model).delta)
    ∧ (model = "realistic" →
      (analyze_margin R0 c kappa T C_right swe model).avg_proxy
        = (analyze_margin R0 c kappa T C_right swe model).alpha_star * Real.log T
            * (0.58 - 0.08 * (analyze_margin R0 c kappa T C_right swe model).delta
                / ((analyze_margin R0 c kappa T C_right swe model).delta + 0.1))
            * (analyze_margin R0 c kappa T C_right swe model).delta)
    ∧ (model = "conservative" →
      (analyze_margin R0 c kappa T C_right swe model).avg_proxy
        = (analyze_margin R0 c kappa T C_right swe model).alpha_star * Real.log T
            * 0.65 * (analyze_margin R0 c kappa T C_right swe model).delta)
    ∧ (analyze_margin R0 c kappa T C_right swe model).bound_rhs
        = (analyze_margin R0 c kappa T C_right swe model).C_thin_star
            * (analyze_margin R0 c kappa T C_right swe model).h
            * (analyze_margin R0 c kappa T C_right swe model).delta * Real.log T
    ∧ (analyze_margin R0 c kappa T C_right swe model).margin
        = (analyze_margin R0 c kappa T C_right swe model).bound_rhs
            - (analyze_margin R0 c kappa T C_right swe model).avg_proxy
    ∧ (0 < (analyze_margin R0 c kappa T C_right swe model).bound_rhs →
        (analyze_margin R0 c kappa T C_right swe model).margin_percent
          = 100 * (analyze_margin R0 c kappa T C_right swe model).margin
              / (analyze_margin R0 c kappa T C_right swe model).bound_rhs) := by
  have havg : ∀ (h delta alpha_star : ℝ) (m : String),
      (estimate_average_g_R0 T h delta alpha_star m).1
        = alpha_star * Real.log T
            * (if m = "toy" then (0.5 : ℝ)
              else if m = "realistic" then 0.58 - 0.08 * delta / (delta + 0.1)
              else if m = "conservative" then 0.65 else 0.5) * delta := by
    intro h delta alpha_star m
    rfl
  refine ⟨?_, ?_, ?_, rfl, rfl, ?_⟩
  · intro hm
    subst hm
    show (estimate_average_g_R0 T (c / Real.log T) (kappa / Real.log T)
        (compute_boundary_growth_slope R0 swe) "toy").1 = _
    rw [havg, if_pos rfl]
    rfl
  · intro hm
    subst hm
    show (estimate_average_g_R0 T (c / Real.log T) (kappa / Real.log T)
        (compute_boundary_growth_slope R0 swe) "realistic").1 = _
    rw [havg, if_neg (by decide), if_pos rfl]
    rfl
  · intro hm
    subst hm
    show (estimate_average_g_R0 T (c / Real.log T) (kappa / Real.log T)
        (compute_boundary_growth_slope R0 swe) "conservative").1 = _
    rw [havg, if_neg (by decide), if_neg (by decide), if_pos rfl]
    rfl
  · intro hpos
    show (if 0 < (analyze_margin R0 c kappa T C_right swe model).bound_rhs
        then (analyze_margin R0 c kappa T C_right swe model).margin
            / (analyze_margin R0 c kappa T C_right swe model).bound_rhs * 100
        else 0) = _
    rw [if_pos hpos]
    ring

/-- C4 witness: the theorem applied at the concrete evaluation
`R0 = 1, c = 1, κ = 1, T = 2, C_right = 1, exponent = 1, model = "toy"`. -/
theorem analyze_margin_formulas_witness :
    (1 : ℝ) < 2
    ∧ ((("toy" : String) = "toy" →
        (analyze_margin 1 1 1 2 1 1 "toy").avg_proxy
          = (analyze_margin 1 1 1 2 1 1 "toy").alpha_star * Real.log 2
              * 0.5 * (analyze_margin 1 1 1 2 1 1 "toy").delta)) :=
  ⟨by norm_num, (analyze_margin_formulas 1 1 1 2 1 1 "toy" (by norm_num)).1⟩

/-- C10: whenever `bound_rhs ≤ 0`, `analyze_margin` sets `margin_percent`
to `0` (instead of failing or leaving it undefined), and the resulting
status is `MARGINAL`, never `INVALID`. -/
theorem margin_percent_zero_on_nonpos_rhs
    (R0 c kappa T C_right swe : ℝ) (model : String)
    (hrhs : (analyze_margin R0 c kappa T C_right swe model).bound_rhs ≤ 0) :
    (analyze_margin R0 c kappa T C_right swe model).margin_percent = 0
    ∧ (analyze_margin R0 c kappa T C_right swe model).status
        = MarginStatus.MARGINAL := by
  have hmp : (analyze_margin R0 c kappa T C_right swe model).margin_percent = 0 := by
    show (if 0 < (analyze_margin R0 c kappa T C_right swe model).bound_rhs
        then (analyze_margin R0 c kappa T C_right swe model).margin
            / (analyze_margin R0 c kappa T C_right swe model).bound_rhs * 100
        else 0) = 0
    rw [if_neg (not_lt.2 hrhs)]
  refine ⟨hmp, ?_⟩
  have hst : (analyze_margin R0 c kappa T C_right swe model).status
      = classify_margin (analyze_margin R0 c kappa T C_right swe model).margin_percent := rfl
  rw [hst, hmp]
  unfold classify_margin
  norm_num

/-- C10 witness: at `R0 = 1, c = 1, κ = -1, T = exp 1, exponent = 0` the bound
`rhs = 8 · 1 · (-1) · 1 = -8 ≤ 0`, and the theorem applies. -/
theorem margin_percent_zero_on_nonpos_rhs_witness :
    (analyze_margin 1 1 (-1) (Real.exp 1) 1 0 "toy").bound_rhs ≤ 0
    ∧ (analyze_margin 1 1 (-1) (Real.exp 1) 1 0 "toy").margin_percent = 0
    ∧ (analyze_margin 1 1 (-1) (Real.exp 1) 1 0 "toy").status
        = MarginStatus.MARGINAL := by
  have hrhs : (analyze_margin 1 1 (-1) (Real.exp 1) 1 0 "toy").bound_rhs ≤ 0 := by
    show compute_C_thin_star 1 (compute_boundary_growth_slope 1 0)
        * (1 / Real.log (Real.exp 1)) * ((-1) / Real.log (Real.exp 1))
        * Real.log (Real.exp 1) ≤ 0
    rw [Real.log_exp]
    unfold compute_C_thin_star compute_boundary_growth_slope
    norm_num
  obtain ⟨h1, h2⟩ := margin_percent_zero_on_nonpos_rhs 1 1 (-1) (Real.exp 1) 1 0 "toy" hrhs
  exact ⟨hrhs, h1, h2⟩

/-! ## optimize.py : metrics and grid search -/

/-- The `Result` dataclass of `optimize.py`. -/
structure OptResult where
  c : ℝ
  kappa : ℝ
  R0 : ℝ
  C_thin : ℝ
  margin_percent : ℝ
  log_T0 : ℝ
  T0 : ℝ
  status : String

/-- `compute_metrics(c, kappa, R0, sub_weyl_exp, C_right, T)` from
`optimize.py` (all keyword defaults passed explicitly): derived quantities,
the `0.5 * (1 - 0.2 * kappa)` averaging factor, the unguarded
`margin_percent = (margin / rhs) * 100`, the threshold, and the binary
status `"OK" if margin_percent > 20 else "FAIL"`. -/
noncomputable def compute_metrics (c kappa R0 sub_weyl_exp C_right T : ℝ) :
    OptResult :=
  let h := c / Real.log T
  let delta := kappa / Real.log T
  let alpha := sub_weyl_exp + R0
  let C_thin := 8 / R0 * alpha
  let scale := alpha * Real.log T
  let avg_factor := 0.5 * (1 - 0.2 * kappa)
  let avg_proxy := scale * avg_factor * delta
  let rhs := C_thin * h * delta * Real.log T
  let margin := rhs - avg_proxy
  let margin_percent := margin / rhs * 100
  let log_T0 := 2 * c / Real.pi * (C_right + kappa * C_thin)
  ⟨c, kappa, R0, C_thin, margin_percent, log_T0, Real.exp log_T0,
    if 20 < margin_percent then "OK" else "FAIL"⟩

/-- `compute_metrics` with the source's keyword defaults
`sub_weyl_exp = 27/164`, `C_right = 0.569961`, `T = 1e12`
(the form called by `grid_search`). -/
noncomputable def compute_metrics_default (c kappa R0 : ℝ) : OptResult :=
  compute_metrics c kappa R0 (27 / 164) 0.569961 1e12

/-- The metrics of a candidate tuple `(c, kappa, R0)`. -/
noncomputable def metricsAt (p : ℝ × ℝ × ℝ) : OptResult :=
  compute_metrics_default p.1 p.2.1 p.2.2

/-- One iteration of the scan loop in `grid_search`: evaluate the candidate,
and if it is feasible (`margin_percent >= min_margin`) keep it when it is
the first feasible candidate or strictly improves `log_T0`
(`best_log_T0` starts at `float('inf')`, modelled by `none`). -/
noncomputable def gridStep (mm : ℝ) : Option OptResult → ℝ × ℝ × ℝ → Option OptResult
  | none, p => if mm ≤ (metricsAt p).margin_percent then some (metricsAt p) else none
  | some b, p =>
      if mm ≤ (metricsAt p).margin_percent then
        if (metricsAt p).log_T0 < b.log_T0 then some (metricsAt p) else some b
      else some b

/-- The `grid_search` scan of `optimize.py`, over the flattened candidate
list in the source's fixed deterministic iteration order
(`R0` outer, then `c`, then `kappa`). -/
noncomputable def grid_search (grid : List (ℝ × ℝ × ℝ)) (min_margin : ℝ) :
    Option OptResult :=
  grid.foldl (gridStep min_margin) none

/-- A candidate is feasible when its `margin_percent` reaches `min_margin`. -/
noncomputable def feasible (min_margin : ℝ) (p : ℝ × ℝ × ℝ) : Prop :=
  min_margin ≤ (metricsAt p).margin_percent

lemma gridStep_none {mm : ℝ} {best : Option OptResult} {p : ℝ × ℝ × ℝ}
    (h : gridStep mm best p = none) : best = none ∧ ¬ feasible mm p := by
  cases best with
  | none =>
      simp only [gridStep] at h
      split at h
      · cases h
      · next hf => exact ⟨rfl, hf⟩
  | some a =>
      simp only [gridStep] at h
      split at h
      · split at h <;> cases h
      · cases h

lemma gridStep_feasible {mm : ℝ} {best : Option OptResult} {p : ℝ × ℝ × ℝ}
    {b : OptResult}
    (hbest : ∀ a, best = some a → mm ≤ a.margin_percent)
    (h : gridStep mm best p = some b) : mm ≤ b.margin_percent := by
  cases best with
  | none =>
      simp only [gridStep] at h
      split at h
      · next hf => cases h; exact hf
      · cases h
  | some a =>
      simp only [gridStep] at h
      split at h
      · next hf =>
          split at h
          · cases h; exact hf
          · cases h; exact hbest _ rfl
      · cases h; exact hbest _ rfl

lemma gridStep_log_le {mm : ℝ} {best : Option OptResult} {p : ℝ × ℝ × ℝ}
    {b' : OptResult} (h : gridStep mm best p = some b') :
    (∀ a, best = some a → b'.log_T0 ≤ a.log_T0)
    ∧ (feasible mm p → b'.log_T0 ≤ (metricsAt p).log_T0) := by
  cases best with
  | none =>
      simp only [gridStep] at h
      split at h
      · cases h
        refine ⟨fun a ha => ?_, fun _ => le_refl _⟩
        cases ha
      · cases h
  | some a =>
      simp only [gridStep] at h
      split at h
      · next hf =>
          split at h
          · next hlt =>
              cases h
              refine ⟨fun x hx => ?_, fun _ => le_refl _⟩
              injection hx with hx
              subst hx
              exact le_of_lt hlt
          · next hge =>
              cases h
              refine ⟨fun x hx => ?_, fun _ => not_lt.1 hge⟩
              injection hx with hx
              subst hx
              exact le_refl _
      · next hf =>
          cases h
          refine ⟨fun x hx => ?_, fun hfe => absurd hfe hf⟩
          injection hx with hx
          subst hx
          exact le_refl _

lemma foldl_gridStep_feasible {mm : ℝ} :
    ∀ (l : List (ℝ × ℝ × ℝ)) (best : Option OptResult) (b : OptResult),
      (∀ a, best = some a → mm ≤ a.margin_percent) →
      l.foldl (gridStep mm) best = some b → mm ≤ b.margin_percent := by
  intro l
  induction l with
  | nil => intro best b hbest h; exact hbest _ h
  | cons p l ih =>
      intro best b hbest h
      rw [List.foldl_cons] at h
      exact ih _ _ (fun a ha => gridStep_feasible hbest ha) h

lemma foldl_gridStep_min {mm : ℝ} :
    ∀ (l : List (ℝ × ℝ × ℝ)) (best : Option OptResult) (b : OptResult),
      l.foldl (gridStep mm) best = some b →
      (∀ p ∈ l, feasible mm p → b.log_T0 ≤ (metricsAt p).log_T0)
      ∧ (∀ a, best = some a → b.log_T0 ≤ a.log_T0) := by
  intro l
  induction l with
  | nil =>
      intro best b h
      refine ⟨by simp, fun a ha => ?_⟩
      rw [ha] at h
      injection h with h
      subst h
      exact le_refl _
  | cons p l ih =>
      intro best b h
      rw [List.foldl_cons] at h
      obtain ⟨htail, hstep⟩ := ih _ _ h
      constructor
      · intro q hq hfq
        rcases List.mem_cons.1 hq with rfl | hq'
        · cases hstate : gridStep mm best q with
          | none => exact absurd hfq (gridStep_none hstate).2
          | some b' =>
              exact le_trans (hstep _ hstate) ((gridStep_log_le hstate).2 hfq)
        · exact htail q hq' hfq
      · intro a ha
        cases hstate : gridStep mm best p with
        | none =>
            rw [(gridStep_none hstate).1] at ha
            cases ha
        | some b' =>
            exact le_trans (hstep _ hstate) ((gridStep_log_le hstate).1 a ha)

lemma foldl_gridStep_first {mm : ℝ} :
    ∀ (l : List (ℝ × ℝ × ℝ)) (best : Option OptResult) (b : OptResult),
      l.foldl (gridStep mm) best = some b →
      best = some b
      ∨ ∃ xs q ys, l = xs ++ q :: ys
          ∧ b = metricsAt q
          ∧ feasible mm q
          ∧ (∀ a, best = some a → b.log_T0 < a.log_T0)
          ∧ (∀ r ∈ xs, feasible mm r → b.log_T0 < (metricsAt r).log_T0) := by
  intro l
  induction l with
  | nil => intro best b h; exact Or.inl h
  | cons p l ih =>
      intro best b h
      rw [List.foldl_cons] at h
      rcases ih _ _ h with hmid | ⟨xs, q, ys, hsplit, hbq, hfq, hacc, hxs⟩
      · -- the recursion returned the state right after processing `p`
        cases best with
        | none =>
            simp only [gridStep] at hmid
            split at hmid
            · next hf =>
                cases hmid
                refine Or.inr ⟨[], p, l, rfl, rfl, hf, fun a ha => ?_, by simp⟩
                cases ha
            · cases hmid
        | some a =>
            simp only [gridStep] at hmid
            split at hmid
            · next hf =>
                split at hmid
                · next hlt =>
                    cases hmid
                    refine Or.inr ⟨[], p, l, rfl, rfl, hf, fun x hx => ?_, by simp⟩
                    injection hx with hx
                    subst hx
                    exact hlt
                · cases hmid
                  exact Or.inl rfl
            · cases hmid
              exact Or.inl rfl
      · -- the recursion found the winner deeper in the scan
        refine Or.inr ⟨p :: xs, q, ys, by rw [hsplit]; rfl, hbq, hfq, ?_, ?_⟩
        · intro a ha
          subst ha
          cases hstate : gridStep mm (some a) p with
          | none => cases (gridStep_none hstate).1
          | some b' =>
              exact lt_of_lt_of_le (hacc b' hstate) ((gridStep_log_le hstate).1 a rfl)
        · intro r hr hfr
          rcases List.mem_cons.1 hr with rfl | hr'
          · cases hstate : gridStep mm best r with
            | none => exact absurd hfr (gridStep_none hstate).2
            | some b' =>
                exact lt_of_lt_of_le (hacc b' hstate) ((gridStep_log_le hstate).2 hfr)
          · exact hxs r hr' hfr

/-- C5: if the grid search over a finite candidate list (in the source's
fixed deterministic scan order) returns a best candidate, then that candidate
is feasible (`margin_percent ≥ min_margin`), its `log_T0` is `≤` the `log_T0`
of every feasible candidate of the grid, and it arises from a grid position
strictly better than every feasible candidate scanned before it — so among
feasible candidates sharing the minimal `log_T0` the first one encountered
in scan order is the one returned. -/
theorem grid_search_optimal (grid : List (ℝ × ℝ × ℝ)) (mm : ℝ) (b : OptResult)
    (hb : grid_search grid mm = some b) :
    mm ≤ b.margin_percent
    ∧ (∀ p ∈ grid, feasible mm p → b.log_T0 ≤ (metricsAt p).log_T0)
    ∧ ∃ xs q ys, grid = xs ++ q :: ys
        ∧ b = metricsAt q
        ∧ feasible mm q
        ∧ (∀ r ∈ xs, feasible mm r → b.log_T0 < (metricsAt r).log_T0) := by
  refine ⟨foldl_gridStep_feasible grid none b (fun a ha => by cases ha) hb,
    (foldl_gridStep_min grid none b hb).1, ?_⟩
  rcases foldl_gridStep_first grid none b hb with h | ⟨xs, q, ys, h1, h2, h3, _, h5⟩
  · cases h
  · exact ⟨xs, q, ys, h1, h2, h3, h5⟩

lemma compute_metrics_default_margin_100 :
    (compute_metrics_default 1 5 1).margin_percent = 100 := by
  have hL : Real.log (1e12 : ℝ) ≠ 0 :=
    ne_of_gt (Real.log_pos (by norm_num))
  show ((8 / 1 * ((27 / 164 : ℝ) + 1)) * (1 / Real.log 1e12)
      * (5 / Real.log 1e12) * Real.log 1e12
      - ((27 / 164 : ℝ) + 1) * Real.log 1e12 * (0.5 * (1 - 0.2 * 5)) * (5 / Real.log 1e12))
      / ((8 / 1 * ((27 / 164 : ℝ) + 1)) * (1 / Real.log 1e12)
        * (5 / Real.log 1e12) * Real.log 1e12) * 100 = 100
  have hsimp : (0.5 : ℝ) * (1 - 0.2 * 5) = 0 := by norm_num
  rw [hsimp]
  field_simp

/-- C5 witness: on the one-point grid `[(c,κ,R0)] = [(1,5,1)]` with
`min_margin = 25` the scan returns that candidate (whose `margin_percent`
is `100`), and the theorem applies to it. -/
theorem grid_search_optimal_witness :
    grid_search [(1, 5, 1)] 25 = some (compute_metrics_default 1 5 1)
    ∧ 25 ≤ (compute_metrics_default 1 5 1).margin_percent := by
  have hfeas : (25 : ℝ) ≤ (metricsAt (1, 5, 1)).margin_percent := by
    show (25 : ℝ) ≤ (compute_metrics_default 1 5 1).margin_percent
    rw [compute_metrics_default_margin_100]
    norm_num
  have hrun : grid_search [(1, 5, 1)] 25 = some (compute_metrics_default 1 5 1) := by
    show gridStep 25 none (1, 5, 1) = some (compute_metrics_default 1 5 1)
    simp only [gridStep]
    rw [if_pos hfeas]
    rfl
  exact ⟨hrun, (grid_search_optimal [(1, 5, 1)] 25 _ hrun).1⟩

/-! ## C6 : the status classification at exactly 20 percent -/

lemma compute_metrics_at_exp_one :
    (compute_metrics 1 1 16 0 1 (Real.exp 1)).margin_percent = 20
    ∧ (compute_metrics 1 1 16 0 1 (Real.exp 1)).status = "FAIL" := by
  have hmp : (compute_metrics 1 1 16 0 1 (Real.exp 1)).margin_percent = 20 := by
    show ((8 / 16 * ((0 : ℝ) + 16)) * (1 / Real.log (Real.exp 1))
        * (1 / Real.log (Real.exp 1)) * Real.log (Real.exp 1)
        - ((0 : ℝ) + 16) * Real.log (Real.exp 1) * (0.5 * (1 - 0.2 * 1))
          * (1 / Real.log (Real.exp 1)))
        / ((8 / 16 * ((0 : ℝ) + 16)) * (1 / Real.log (Real.exp 1))
          * (1 / Real.log (Real.exp 1)) * Real.log (Real.exp 1)) * 100 = 20
    rw [Real.log_exp]
    norm_num
  refine ⟨hmp, ?_⟩
  show (if 20 < (compute_metrics 1 1 16 0 1 (Real.exp 1)).margin_percent
      then "OK" else "FAIL") = "FAIL"
  rw [hmp, if_neg (lt_irrefl 20)]

/-- C6 counterexample: `compute_metrics` in `optimize.py` is an evaluation
whose `margin_percent` is exactly `20` (at
`c = 1, κ = 1, R0 = 16, exponent = 0, C_right = 1, T = exp 1`),
yet its reported status is `"FAIL"`, not OK — so the claim that every
evaluation with `margin_percent = 20` reports OK is false. -/
theorem status_at_twenty_not_OK :
    (compute_metrics 1 1 16 0 1 (Real.exp 1)).margin_percent = 20
    ∧ (compute_metrics 1 1 16 0 1 (Real.exp 1)).status ≠ "OK" := by
  obtain ⟨h1, h2⟩ := compute_metrics_at_exp_one
  refine ⟨h1, ?_⟩
  rw [h2]
  decide

/-- C6 amended: the three-band classification of
`measure_Cthin_star.analyze_margin` maps `margin_percent < 0` to INVALID,
`0 ≤ margin_percent < 20` to MARGINAL and `margin_percent ≥ 20` to OK (so
exactly `20` reports OK there), while `optimize.compute_metrics` instead
reports `"OK"` only when `margin_percent > 20` strictly (and `"FAIL"`
otherwise, in particular at exactly `20`). -/
theorem status_classification_amended :
    (∀ x : ℝ, (x < 0 → classify_margin x = MarginStatus.INVALID)
      ∧ (0 ≤ x → x < 20 → classify_margin x = MarginStatus.MARGINAL)
      ∧ (20 ≤ x → classify_margin x = MarginStatus.OK))
    ∧ (∀ c kappa R0 swe Cr T : ℝ,
        (compute_metrics c kappa R0 swe Cr T).status = "OK"
          ↔ 20 < (compute_metrics c kappa R0 swe Cr T).margin_percent) := by
  constructor
  · intro x
    refine ⟨fun hx => ?_, fun hx0 hx20 => ?_, fun hx => ?_⟩
    · unfold classify_margin
      rw [if_pos hx]
    · unfold classify_margin
      rw [if_neg (not_lt.2 hx0), if_pos hx20]
    · unfold classify_margin
      rw [if_neg (not_lt.2 (le_trans (by norm_num) hx)), if_neg (not_lt.2 hx)]
  · intro c kappa R0 swe Cr T
    show (if 20 < (compute_metrics c kappa R0 swe Cr T).margin_percent
        then "OK" else "FAIL") = "OK" ↔ _
    split
    · next h => simpa using h
    · next h =>
        constructor
        · intro hcon
          exact absurd hcon (by decide)
        · intro h20
          exact absurd h20 h

/-- C6 amended witness: the classification evaluated at `-1`, `10` and `20`,
and the `compute_metrics` rule evaluated at an input where
`margin_percent = 20`. -/
theorem status_classification_amended_witness :
    classify_margin (-1) = MarginStatus.INVALID
    ∧ classify_margin 10 = MarginStatus.MARGINAL
    ∧ classify_margin 20 = MarginStatus.OK
    ∧ ((compute_metrics 1 1 16 0 1 (Real.exp 1)).status = "OK"
        ↔ 20 < (compute_metrics 1 1 16 0 1 (Real.exp 1)).margin_percent) :=
  ⟨(status_classification_amended.1 (-1)).1 (by norm_num),
    (status_classification_amended.1 10).2.1 (by norm_num) (by norm_num),
    (status_classification_amended.1 20).2.2 (by norm_num),
    status_classification_amended.2 1 1 16 0 1 (Real.exp 1)⟩

/-! ## validate_horizontals.py : the piecewise envelope bound -/

/-- `stirling_log_gamma_derivative(sigma, t)`: for `|s| = sqrt(σ² + t²) < 10`
the Python code delegates to the optional mpmath capability (or a rough
fallback); that external branch is modelled by an explicit `oracle`
parameter. For `|s| ≥ 10` it returns the Stirling main term plus
correction, exactly as in the source. -/
noncomputable def stirling_log_gamma_derivative (oracle : ℝ → ℝ → ℝ)
    (sigma t : ℝ) : ℝ :=
  let s_abs := Real.sqrt (sigma ^ 2 + t ^ 2)
  if s_abs < 10 then oracle sigma t
  else Real.log s_abs + sigma / (2 * s_abs ^ 2)

/-- `estimate_f_prime_over_f_derivative(sigma, t)`: the three-region
piecewise derivative estimate — Dirichlet majorization for `σ > 1.5`,
reflected Stirling estimate plus `1/|t|` for `σ < 0.75`, and the linear
interpolation with weight `(σ - 0.75)/0.75` in between. -/
noncomputable def estimate_f_prime_over_f_derivative (oracle : ℝ → ℝ → ℝ)
    (sigma t : ℝ) : ℝ :=
  if 1.5 < sigma then 2 / sigma ^ 2
  else if sigma < 0.75 then
    |stirling_log_gamma_derivative oracle (0.5 - sigma) t| + 1 / |t|
  else
    let weight := (sigma - 0.75) / 0.75
    let left_bound := stirling_log_gamma_derivative oracle (0.5 - sigma) t + 1 / |t|
    let right_bound := 2 / sigma ^ 2
    (1 - weight) * |left_bound| + weight * right_bound

/-- `numpy.linspace(a, b, n)`: the `n` points `a + i·(b-a)/(n-1)`. -/
noncomputable def linspace (a b : ℝ) (n : Nat) : List ℝ :=
  (List.range n).map fun (i : Nat) => a + (b - a) * (i : ℝ) / ((n : ℝ) - 1)

/-- The `max_derivative` accumulation of `compute_horizontal_bound`:
starting from `0`, take the max of the derivative estimate over
`t ∈ {T, T+h/2, T+h}` and the 20 sample values of `σ` in
`[1/2 + delta, 2]`. -/
noncomputable def max_derivative (oracle : ℝ → ℝ → ℝ) (T h delta : ℝ) : ℝ :=
  [T, T + h / 2, T + h].foldl
    (fun m t => (linspace (0.5 + delta) 2 20).foldl
      (fun m sigma => max m (estimate_f_prime_over_f_derivative oracle sigma t)) m)
    0

/-- The `results['envelope']` record of `compute_horizontal_bound`. -/
structure EnvelopeResult where
  max_derivative : ℝ
  envelope_bound : ℝ
  C_horiz : ℝ
  refined_bound : ℝ

/-- The envelope branch of `compute_horizontal_bound(T, h, delta)`:
`envelope_bound = h * max_derivative`, `C_horiz = max_derivative * T`,
`refined_bound = C_horiz * h / T`. -/
noncomputable def compute_horizontal_bound (oracle : ℝ → ℝ → ℝ)
    (T h delta : ℝ) : EnvelopeResult :=
  let D := max_derivative oracle T h delta
  ⟨D, h * D, D * T, D * T * h / T⟩

/-- C7: for every `T`, `h` and `delta` passed to the envelope computation
(heights are positive), the `refined_bound` (computed as `C_horiz · h / T`
with `C_horiz = max_derivative · T`) equals the `envelope_bound`
(computed as `h · max_derivative`). -/
theorem refined_eq_envelope (oracle : ℝ → ℝ → ℝ) (T h delta : ℝ)
    (hT : 0 < T) :
    (compute_horizontal_bound oracle T h delta).refined_bound
      = (compute_horizontal_bound oracle T h delta).envelope_bound := by
  show max_derivative oracle T h delta * T * h / T
      = h * max_derivative oracle T h delta
  field_simp
  ring

/-- C7 witness: the theorem applied at `T = 1`, `h = 0`, `delta = 0` with the
zero oracle. -/
theorem refined_eq_envelope_witness :
    (0 : ℝ) < 1
    ∧ (compute_horizontal_bound (fun x t => 0) 1 0 0).refined_bound
      = (compute_horizontal_bound (fun x t => 0) 1 0 0).envelope_bound :=
  ⟨by norm_num, refined_eq_envelope (fun x t => 0) 1 0 0 (by norm_num)⟩

/-! ### Bounds on the envelope maximum (for the decay property C9) -/

lemma foldl_max_init_le (f : ℝ → ℝ) :
    ∀ (l : List ℝ) (a : ℝ), a ≤ l.foldl (fun m x => max m (f x)) a := by
  intro l
  induction l with
  | nil => intro a; exact le_refl a
  | cons x l ih =>
      intro a
      exact le_trans (le_max_left a (f x)) (ih _)

lemma foldl_max_le_of_mem (f : ℝ → ℝ) :
    ∀ (l : List ℝ) (a x : ℝ), x ∈ l →
      f x ≤ l.foldl (fun m y => max m (f y)) a := by
  intro l
  induction l with
  | nil => intro a x hx; simp at hx
  | cons y l ih =>
      intro a x hx
      rcases List.mem_cons.1 hx with rfl | hx'
      · exact le_trans (le_max_right a (f x)) (foldl_max_init_le f l _)
      · exact ih _ x hx'

lemma foldl_max_le (f : ℝ → ℝ) {B : ℝ} :
    ∀ (l : List ℝ) (a : ℝ), a ≤ B → (∀ x ∈ l, f x ≤ B) →
      l.foldl (fun m x => max m (f x)) a ≤ B := by
  intro l
  induction l with
  | nil => intro a ha _; exact ha
  | cons x l ih =>
      intro a ha hl
      exact ih _ (max_le ha (hl x (List.mem_cons_self _ _)))
        fun y hy => hl y (List.mem_cons_of_mem _ hy)

lemma linspace_mem_bounds {a b : ℝ} (hab : a ≤ b) {x : ℝ}
    (hx : x ∈ linspace a b 20) : a ≤ x ∧ x ≤ b := by
  unfold linspace at hx
  rw [List.mem_map] at hx
  obtain ⟨i, hi, rfl⟩ := hx
  rw [List.mem_range] at hi
  have hi19 : (i : ℝ) ≤ 19 := by
    have : i ≤ 19 := by omega
    exact_mod_cast this
  have hi0 : (0 : ℝ) ≤ (i : ℝ) := Nat.cast_nonneg i
  have h19 : ((20 : ℕ) : ℝ) - 1 = 19 := by norm_num
  rw [h19]
  constructor
  · have : 0 ≤ (b - a) * (i : ℝ) / 19 :=
      div_nonneg (mul_nonneg (by linarith) hi0) (by norm_num)
    linarith
  · have hm : (b - a) * (i : ℝ) / 19 ≤ b - a := by
      rw [div_le_iff₀ (by norm_num : (0:ℝ) < 19)]
      nlinarith
    linarith

lemma linspace_head_mem (a b : ℝ) : a + (b - a) * 0 / ((20 : ℝ) - 1) ∈ linspace a b 20 := by
  unfold linspace
  rw [List.mem_map]
  exact ⟨0, by simp, by norm_num⟩

lemma four_lt_log {t : ℝ} (ht : 100 ≤ t) : 4 < Real.log t := by
  have h0 : (0 : ℝ) < t := by linarith
  rw [Real.lt_log_iff_exp_lt h0]
  have h4 : Real.exp 4 = Real.exp 1 ^ 4 := by
    rw [← Real.exp_nat_mul]
    norm_num
  have he : Real.exp 1 ^ 4 < 2.7182818286 ^ 4 := by
    apply pow_lt_pow_left₀ Real.exp_one_lt_d9 (le_of_lt (Real.exp_pos 1))
    norm_num
  have : (2.7182818286 : ℝ) ^ 4 < 100 := by norm_num
  linarith [h4 ▸ he]

/-- In the Stirling regime (`t ≥ 100`, reflected argument `σ ∈ [-1.5, 0]`) the
Stirling estimate is between `log t - 1/t²` and `log t + 2/t²`; in particular
the external small-`|s|` oracle is never consulted. -/
lemma stirling_bounds (oracle : ℝ → ℝ → ℝ) {sigma t : ℝ}
    (h1 : -1.5 ≤ sigma) (h2 : sigma ≤ 0) (ht : 100 ≤ t) :
    Real.log t - 1 / t ^ 2 ≤ stirling_log_gamma_derivative oracle sigma t
    ∧ stirling_log_gamma_derivative oracle sigma t ≤ Real.log t + 2 / t ^ 2 := by
  have ht0 : (0 : ℝ) < t := by linarith
  have hs2 : (0 : ℝ) ≤ sigma ^ 2 + t ^ 2 := by positivity
  have htle : t ≤ Real.sqrt (sigma ^ 2 + t ^ 2) := by
    have := Real.sqrt_le_sqrt (show t ^ 2 ≤ sigma ^ 2 + t ^ 2 by nlinarith)
    rwa [Real.sqrt_sq (le_of_lt ht0)] at this
  have hsabs_pos : (0 : ℝ) < Real.sqrt (sigma ^ 2 + t ^ 2) := by linarith
  have hnotlt : ¬ Real.sqrt (sigma ^ 2 + t ^ 2) < 10 := by
    push_neg
    linarith
  have hval : stirling_log_gamma_derivative oracle sigma t
      = Real.log (Real.sqrt (sigma ^ 2 + t ^ 2))
        + sigma / (2 * Real.sqrt (sigma ^ 2 + t ^ 2) ^ 2) := by
    unfold stirling_log_gamma_derivative
    rw [if_neg hnotlt]
  have hsq : Real.sqrt (sigma ^ 2 + t ^ 2) ^ 2 = sigma ^ 2 + t ^ 2 :=
    Real.sq_sqrt hs2
  have hlog_eq : Real.log (Real.sqrt (sigma ^ 2 + t ^ 2))
      = Real.log (sigma ^ 2 + t ^ 2) / 2 := Real.log_sqrt hs2
  have hσsq : sigma ^ 2 ≤ 2.25 := by nlinarith
  constructor
  · -- lower bound
    rw [hval, hsq]
    have hlog_lb : Real.log t ≤ Real.log (Real.sqrt (sigma ^ 2 + t ^ 2)) :=
      Real.log_le_log ht0 htle
    have hcorr : -(1 / t ^ 2) ≤ sigma / (2 * (sigma ^ 2 + t ^ 2)) := by
      have hden : (0 : ℝ) < 2 * (sigma ^ 2 + t ^ 2) := by nlinarith
      rw [neg_le, ← neg_div]
      rw [div_le_div_iff₀ hden (by positivity)]
      nlinarith
    linarith [hlog_lb, hcorr]
  · -- upper bound
    rw [hval, hsq]
    have hup : Real.log (Real.sqrt (sigma ^ 2 + t ^ 2))
        ≤ Real.log t + 1.125 / t ^ 2 := by
      rw [hlog_eq]
      have hmono : Real.log (sigma ^ 2 + t ^ 2) ≤ Real.log (t ^ 2 * (1 + 2.25 / t ^ 2)) := by
        apply Real.log_le_log (by nlinarith)
        have : t ^ 2 * (1 + 2.25 / t ^ 2) = t ^ 2 + 2.25 := by
          field_simp
        nlinarith [this]
      have hsplit : Real.log (t ^ 2 * (1 + 2.25 / t ^ 2))
          = Real.log (t ^ 2) + Real.log (1 + 2.25 / t ^ 2) :=
        Real.log_mul (by positivity) (by positivity)
      have hpow : Real.log (t ^ 2) = 2 * Real.log t := by
        rw [Real.log_pow]
        norm_num
      have hsmall : Real.log (1 + 2.25 / t ^ 2) ≤ 2.25 / t ^ 2 := by
        have := Real.log_le_sub_one_of_pos (show (0:ℝ) < 1 + 2.25 / t ^ 2 by positivity)
        linarith
      have hchain : Real.log (sigma ^ 2 + t ^ 2) ≤ 2 * Real.log t + 2.25 / t ^ 2 := by
        linarith [hmono, hsplit, hpow, hsmall]
      have hring : (2 * Real.log t + 2.25 / t ^ 2) / 2 = Real.log t + 1.125 / t ^ 2 := by
        ring
      linarith [hchain, hring]
    have hcorr : sigma / (2 * (sigma ^ 2 + t ^ 2)) ≤ 0 := by
      apply div_nonpos_of_nonpos_of_nonneg h2
      nlinarith
    have : (1.125 : ℝ) / t ^ 2 ≤ 2 / t ^ 2 := by
      apply div_le_div_of_nonneg_right _ (by positivity)
      norm_num
    linarith [hup, hcorr, this]

/-- Over the sampled strip (`0.5 < σ ≤ 2`, `t ≥ 100`) every branch of the
derivative estimate is at most `log t + 2/t`. -/
lemma estimate_upper (oracle : ℝ → ℝ → ℝ) {sigma t : ℝ}
    (h1 : 0.5 < sigma) (h2 : sigma ≤ 2) (ht : 100 ≤ t) :
    estimate_f_prime_over_f_derivative oracle sigma t ≤ Real.log t + 2 / t := by
  have ht0 : (0 : ℝ) < t := by linarith
  have hlog : 4 < Real.log t := four_lt_log ht
  have ht2 : (0 : ℝ) < 2 / t := by positivity
  have htsq : 2 / t ^ 2 + 1 / t ≤ 2 / t := by
    have h1t : 2 / t ^ 2 ≤ 1 / t := by
      rw [div_le_div_iff₀ (by positivity) ht0]
      nlinarith
    have h2t : (2 : ℝ) / t = 1 / t + 1 / t := by ring
    linarith
  have h1t2 : 1 / t ^ 2 ≤ 1 := by
    rw [div_le_one (by positivity)]
    nlinarith
  unfold estimate_f_prime_over_f_derivative
  split
  · next hσ =>
      -- Dirichlet region: `2/σ² ≤ 2/1.5² < 1 < log t`
      have hσ2 : (2.25 : ℝ) ≤ sigma ^ 2 := by nlinarith
      have : 2 / sigma ^ 2 ≤ 2 / 2.25 := by
        rw [div_le_div_iff₀ (by nlinarith) (by norm_num)]
        nlinarith
      have h89 : (2 : ℝ) / 2.25 < 1 := by norm_num
      linarith
  · next hσ15 =>
      split
      · next hσ75 =>
          -- Stirling region
          obtain ⟨hlb, hub⟩ := stirling_bounds oracle
            (show -1.5 ≤ 0.5 - sigma by linarith)
            (show 0.5 - sigma ≤ 0 by linarith) ht
          have hpos : 0 < stirling_log_gamma_derivative oracle (0.5 - sigma) t := by
            linarith
          rw [abs_of_pos hpos, abs_of_pos ht0]
          linarith
      · next hσ75 =>
          -- interpolation region: convex combination of two bounded values
          push_neg at hσ15 hσ75
          obtain ⟨hlb, hub⟩ := stirling_bounds oracle
            (show -1.5 ≤ 0.5 - sigma by linarith)
            (show 0.5 - sigma ≤ 0 by linarith) ht
          have hw0 : 0 ≤ (sigma - 0.75) / 0.75 := by
            apply div_nonneg (by linarith) (by norm_num)
          have hw1 : (sigma - 0.75) / 0.75 ≤ 1 := by
            rw [div_le_one (by norm_num)]
            linarith
          show (1 - (sigma - 0.75) / 0.75)
              * abs (stirling_log_gamma_derivative oracle (0.5 - sigma) t + 1 / abs t)
              + (sigma - 0.75) / 0.75 * (2 / sigma ^ 2) ≤ Real.log t + 2 / t
          rw [abs_of_pos ht0]
          have hleft : |stirling_log_gamma_derivative oracle (0.5 - sigma) t + 1 / t|
              ≤ Real.log t + 2 / t := by
            have hpos : 0 < stirling_log_gamma_derivative oracle (0.5 - sigma) t + 1 / t := by
              have : (0 : ℝ) < 1 / t := by positivity
              linarith
            rw [abs_of_pos hpos]
            linarith
          have hright : 2 / sigma ^ 2 ≤ Real.log t + 2 / t := by
            have hσ2 : (0.5625 : ℝ) ≤ sigma ^ 2 := by nlinarith
            have : 2 / sigma ^ 2 ≤ 2 / 0.5625 := by
              rw [div_le_div_iff₀ (by nlinarith) (by norm_num)]
              nlinarith
            have h32 : (2 : ℝ) / 0.5625 ≤ 4 := by norm_num
            linarith
          have hc1 : (1 - (sigma - 0.75) / 0.75)
              * |stirling_log_gamma_derivative oracle (0.5 - sigma) t + 1 / t|
              ≤ (1 - (sigma - 0.75) / 0.75) * (Real.log t + 2 / t) :=
            mul_le_mul_of_nonneg_left hleft (by linarith)
          have hc2 : (sigma - 0.75) / 0.75 * (2 / sigma ^ 2)
              ≤ (sigma - 0.75) / 0.75 * (Real.log t + 2 / t) :=
            mul_le_mul_of_nonneg_left hright hw0
          refine le_trans (add_le_add hc1 hc2) (le_of_eq (by ring))

/-- In the Stirling region (`0.5 < σ < 0.75`, `t ≥ 100`) the estimate is at
least `log t + 1/t - 1/t²`. -/
lemma estimate_lower (oracle : ℝ → ℝ → ℝ) {sigma t : ℝ}
    (h1 : 0.5 < sigma) (h2 : sigma < 0.75) (ht : 100 ≤ t) :
    Real.log t + 1 / t - 1 / t ^ 2
      ≤ estimate_f_prime_over_f_derivative oracle sigma t := by
  have ht0 : (0 : ℝ) < t := by linarith
  obtain ⟨hlb, _⟩ := stirling_bounds oracle
    (show -1.5 ≤ 0.5 - sigma by linarith)
    (show 0.5 - sigma ≤ 0 by linarith) ht
  unfold estimate_f_prime_over_f_derivative
  rw [if_neg (by linarith : ¬ (1.5 : ℝ) < sigma), if_pos h2, abs_of_pos ht0]
  have habs : stirling_log_gamma_derivative oracle (0.5 - sigma) t
      ≤ |stirling_log_gamma_derivative oracle (0.5 - sigma) t| := le_abs_self _
  linarith

/-- Upper bound for the sampled envelope maximum. -/
lemma max_derivative_le (oracle : ℝ → ℝ → ℝ) {T h delta : ℝ}
    (hT : 100 ≤ T) (hh : 0 ≤ h) (hd : 0 < delta) (hd2 : delta ≤ 1.5) :
    max_derivative oracle T h delta ≤ Real.log (T + h) + 2 / T := by
  have hT0 : (0 : ℝ) < T := by linarith
  set B := Real.log (T + h) + 2 / T with hB
  have hBpos : 0 ≤ B := by
    have : 4 < Real.log (T + h) := four_lt_log (by linarith)
    have : (0 : ℝ) < 2 / T := by positivity
    simp only [hB]
    linarith [four_lt_log (show (100 : ℝ) ≤ T + h by linarith)]
  have hσ : ∀ x ∈ linspace (0.5 + delta) 2 20, 0.5 < x ∧ x ≤ 2 := by
    intro x hx
    obtain ⟨hxa, hxb⟩ := linspace_mem_bounds (by linarith) hx
    exact ⟨by linarith, hxb⟩
  have hstep : ∀ t : ℝ, T ≤ t → t ≤ T + h →
      ∀ x ∈ linspace (0.5 + delta) 2 20,
        estimate_f_prime_over_f_derivative oracle x t ≤ B := by
    intro t htl htu x hx
    obtain ⟨hx1, hx2⟩ := hσ x hx
    have h100 : (100 : ℝ) ≤ t := by linarith
    have hle := estimate_upper oracle hx1 hx2 h100
    have hlog : Real.log t ≤ Real.log (T + h) :=
      Real.log_le_log (by linarith) htu
    have hdiv : 2 / t ≤ 2 / T := by
      rw [div_le_div_iff₀ (by linarith) hT0]
      nlinarith
    simp only [hB]
    linarith
  show ([T, T + h / 2, T + h].foldl
    (fun m t => (linspace (0.5 + delta) 2 20).foldl
      (fun m sigma => max m (estimate_f_prime_over_f_derivative oracle sigma t)) m)
    0) ≤ B
  simp only [List.foldl_cons, List.foldl_nil]
  apply foldl_max_le _ _ _ _ (hstep (T + h) (by linarith) (by linarith))
  apply foldl_max_le _ _ _ _ (hstep (T + h / 2) (by linarith) (by linarith))
  apply foldl_max_le _ _ _ hBpos (hstep T (le_refl T) (by linarith))

/-- Lower bound for the sampled envelope maximum: the sample at the first
grid point `σ = 0.5 + delta` and `t = T` is in the Stirling region. -/
lemma max_derivative_ge (oracle : ℝ → ℝ → ℝ) {T h delta : ℝ}
    (hT : 100 ≤ T) (hd : 0 < delta) (hd2 : delta < 0.25) :
    Real.log T + 1 / T - 1 / T ^ 2 ≤ max_derivative oracle T h delta := by
  have hσ0 : (0.5 + delta) + (2 - (0.5 + delta)) * 0 / ((20 : ℝ) - 1)
      ∈ linspace (0.5 + delta) 2 20 := linspace_head_mem (0.5 + delta) 2
  have hσ0eq : (0.5 + delta) + (2 - (0.5 + delta)) * 0 / ((20 : ℝ) - 1)
      = 0.5 + delta := by ring
  rw [hσ0eq] at hσ0
  have hlow := estimate_lower oracle
    (show (0.5 : ℝ) < 0.5 + delta by linarith)
    (show (0.5 : ℝ) + delta < 0.75 by linarith) hT
  show Real.log T + 1 / T - 1 / T ^ 2 ≤ ([T, T + h / 2, T + h].foldl
    (fun m t => (linspace (0.5 + delta) 2 20).foldl
      (fun m sigma => max m (estimate_f_prime_over_f_derivative oracle sigma t)) m)
    0)
  simp only [List.foldl_cons, List.foldl_nil]
  have s1 : estimate_f_prime_over_f_derivative oracle (0.5 + delta) T
      ≤ (linspace (0.5 + delta) 2 20).foldl
          (fun m sigma => max m (estimate_f_prime_over_f_derivative oracle sigma T)) 0 :=
    foldl_max_le_of_mem
      (fun σ => estimate_f_prime_over_f_derivative oracle σ T) _ _ _ hσ0
  have s2 : ∀ (a t : ℝ), a ≤ (linspace (0.5 + delta) 2 20).foldl
      (fun m sigma => max m (estimate_f_prime_over_f_derivative oracle sigma t)) a :=
    fun a t => foldl_max_init_le _ _ _
  exact le_trans hlow (le_trans s1 (le_trans (s2 _ (T + h / 2)) (s2 _ (T + h))))

lemma log_add_le {T h : ℝ} (hT : 0 < T) (hh : 0 ≤ h) :
    Real.log (T + h) ≤ Real.log T + h / T := by
  have h1 : Real.log (T + h) - Real.log T = Real.log ((T + h) / T) := by
    rw [Real.log_div (by linarith) (ne_of_gt hT)]
  have h2 : Real.log ((T + h) / T) ≤ (T + h) / T - 1 :=
    Real.log_le_sub_one_of_pos (by positivity)
  have h3 : (T + h) / T - 1 = h / T := by field_simp
  linarith

/-- C9: with `c = 0.25` and `κ = 2.0` (so `h = c / log T` and
`delta = κ / log T` per height, as in `validate_multiple_heights`), the
`refined_bound` of the envelope method at `T = 1e12` is strictly larger than
at `T = 1e14` — the bound decays with height. -/
theorem horizontal_bound_decays (oracle : ℝ → ℝ → ℝ) :
    (compute_horizontal_bound oracle 1e14
        (0.25 / Real.log 1e14) (2 / Real.log 1e14)).refined_bound
      < (compute_horizontal_bound oracle 1e12
        (0.25 / Real.log 1e12) (2 / Real.log 1e12)).refined_bound := by
  have hmuldiv : ∀ (D T h : ℝ), T ≠ 0 → D * T * h / T = D * h := by
    intro D T h hT
    rw [show D * T * h = D * h * T by ring, mul_div_assoc, div_self hT, mul_one]
  set L1 := Real.log (1e12 : ℝ) with hL1def
  set L2 := Real.log (1e14 : ℝ) with hL2def
  have h8 : (8 : ℝ) < L1 := by
    rw [hL1def, Real.lt_log_iff_exp_lt (by norm_num)]
    have h4 : Real.exp 8 = Real.exp 1 ^ 8 := by
      rw [← Real.exp_nat_mul]
      norm_num
    have he : Real.exp 1 ^ 8 < 2.7182818286 ^ 8 :=
      pow_lt_pow_left₀ Real.exp_one_lt_d9 (le_of_lt (Real.exp_pos 1)) (by norm_num)
    have hnum : (2.7182818286 : ℝ) ^ 8 < 1e12 := by norm_num
    rw [h4]
    linarith
  have hL12 : L1 ≤ L2 := Real.log_le_log (by norm_num) (by norm_num)
  have hL1pos : (0 : ℝ) < L1 := by linarith
  have hL2pos : (0 : ℝ) < L2 := by linarith
  have hL1ne : L1 ≠ 0 := ne_of_gt hL1pos
  have hL2ne : L2 ≠ 0 := ne_of_gt hL2pos
  -- lower bound on the maximum at height 1e12
  have hd1 : (0 : ℝ) < 2 / L1 := by positivity
  have hd1' : 2 / L1 < 0.25 := by
    rw [div_lt_iff₀ hL1pos]
    linarith
  have hD1 := max_derivative_ge oracle (T := 1e12) (h := 0.25 / L1)
    (by norm_num) hd1 hd1'
  -- upper bound on the maximum at height 1e14
  have hd2 : (0 : ℝ) < 2 / L2 := by positivity
  have hd2' : 2 / L2 ≤ 1.5 := by
    rw [div_le_iff₀ hL2pos]
    linarith
  have hh2 : (0 : ℝ) ≤ 0.25 / L2 := by positivity
  have hD2 := max_derivative_le oracle (T := 1e14) (h := 0.25 / L2)
    (by norm_num) hh2 hd2 hd2'
  have hlog2 : Real.log ((1e14 : ℝ) + 0.25 / L2) ≤ L2 + (0.25 / L2) / 1e14 :=
    log_add_le (by norm_num) hh2
  have hh2small : (0.25 : ℝ) / L2 ≤ 1 := by
    rw [div_le_one hL2pos]
    linarith
  have hcorr2 : (0.25 / L2) / (1e14 : ℝ) ≤ 1 / 1e14 := by gcongr
  have hD2sum : max_derivative oracle 1e14 (0.25 / L2) (2 / L2) ≤ L2 + 3 / 1e14 := by
    have h214 : (2 : ℝ) / 1e14 + 1 / 1e14 ≤ 3 / 1e14 := by norm_num
    linarith
  -- reduce both refined bounds to `D * h`
  show max_derivative oracle 1e14 (0.25 / L2) (2 / L2) * 1e14 * (0.25 / L2) / 1e14
      < max_derivative oracle 1e12 (0.25 / L1) (2 / L1) * 1e12 * (0.25 / L1) / 1e12
  rw [hmuldiv _ _ _ (by norm_num : (1e14 : ℝ) ≠ 0),
    hmuldiv _ _ _ (by norm_num : (1e12 : ℝ) ≠ 0)]
  -- chain of estimates
  have step1 : max_derivative oracle 1e14 (0.25 / L2) (2 / L2) * (0.25 / L2)
      ≤ (L2 + 3 / 1e14) * (0.25 / L2) :=
    mul_le_mul_of_nonneg_right hD2sum hh2
  have step2 : (L2 + 3 / 1e14) * (0.25 / L2) = 0.25 + (3 / 1e14 * 0.25) / L2 := by
    field_simp
    ring
  have step3 : (3 / 1e14 * 0.25 : ℝ) / L2 ≤ (3 / 1e14 * 0.25) / L1 := by gcongr
  have step4 : ((3 : ℝ) / 1e14 * 0.25) / L1
      < (0.25 * (1 / 1e12 - 1 / (1e12 : ℝ) ^ 2)) / L1 := by
    rw [div_lt_div_iff₀ hL1pos hL1pos]
    have hnum : (3 : ℝ) / 1e14 * 0.25 < 0.25 * (1 / 1e12 - 1 / (1e12 : ℝ) ^ 2) := by
      norm_num
    nlinarith [mul_lt_mul_of_pos_right hnum hL1pos]
  have step5 : (0.25 : ℝ) + (0.25 * (1 / 1e12 - 1 / (1e12 : ℝ) ^ 2)) / L1
      = (L1 + (1 / 1e12 - 1 / (1e12 : ℝ) ^ 2)) * (0.25 / L1) := by
    field_simp
    ring
  have step6 : (L1 + (1 / 1e12 - 1 / (1e12 : ℝ) ^ 2)) * (0.25 / L1)
      ≤ max_derivative oracle 1e12 (0.25 / L1) (2 / L1) * (0.25 / L1) := by
    apply mul_le_mul_of_nonneg_right _ (by positivity)
    linarith [hD1]
  calc max_derivative oracle 1e14 (0.25 / L2) (2 / L2) * (0.25 / L2)
      ≤ (L2 + 3 / 1e14) * (0.25 / L2) := step1
    _ = 0.25 + (3 / 1e14 * 0.25) / L2 := step2
    _ ≤ 0.25 + (3 / 1e14 * 0.25) / L1 := by linarith
    _ < 0.25 + (0.25 * (1 / 1e12 - 1 / (1e12 : ℝ) ^ 2)) / L1 := by linarith
    _ = (L1 + (1 / 1e12 - 1 / (1e12 : ℝ) ^ 2)) * (0.25 / L1) := step5
    _ ≤ max_derivative oracle 1e12 (0.25 / L1) (2 / L1) * (0.25 / L1) := step6

end RN
